import Mathlib

/-!
Verification development for the pidwatch dashboard (sources: src/info.rs and
src/main.rs). The snapshot data model and the aggregation pipeline are embedded
shallowly: Rust structs become Lean structures, the derived-metric computations
in `SystemInfo::populate` and in the render closure of `main` become Lean
functions. `f32` values are modelled by `F32`: NaN, signed infinity, or an
exact rational (finite-precision rounding is abstracted; NaN/Inf production
and propagation follow IEEE 754, which is what the spec's claims are about).
`u64` arithmetic is modelled on ℕ with explicit wrap-around modulo 2^64 where
the source performs unchecked `u64` subtraction or addition. A Rust panic
(an `unwrap` of `None`, or a sort whose comparator unwraps `partial_cmp` on a
NaN) is modelled by `Option`, with `none` for the panic.
-/

namespace Pidwatch

/-- Model of an `f32` value: NaN, an infinity (`true` = +∞, `false` = −∞), or a
finite value carried exactly as a rational. -/
inductive F32 where
  | nan : F32
  | inf : Bool → F32
  | fin : ℚ → F32
deriving DecidableEq

/-- True exactly on the NaN value. -/
def F32.isNan : F32 → Bool
  | .nan => true
  | _ => false

/-- IEEE-style addition: NaN absorbs, opposite infinities give NaN, finite
values add exactly. -/
def F32.add : F32 → F32 → F32
  | .nan, _ => .nan
  | _, .nan => .nan
  | .inf s, .inf t => if s = t then .inf s else .nan
  | .inf s, .fin _ => .inf s
  | .fin _, .inf t => .inf t
  | .fin a, .fin b => .fin (a + b)

/-- IEEE-style division: NaN absorbs, 0/0 is NaN, (nonzero)/0 is a signed
infinity, finite values divide exactly. -/
def F32.div : F32 → F32 → F32
  | .nan, _ => .nan
  | _, .nan => .nan
  | .inf _, .inf _ => .nan
  | .inf s, .fin b => if b < 0 then .inf (!s) else .inf s
  | .fin _, .inf _ => .fin 0
  | .fin a, .fin b =>
      if b = 0 then
        if a = 0 then .nan else if a < 0 then .inf false else .inf true
      else .fin (a / b)

/-- IEEE-style `≤` as the Rust `<=`/`partial_cmp` would decide it: any
comparison involving NaN is false. -/
def F32.ble : F32 → F32 → Bool
  | .nan, _ => false
  | _, .nan => false
  | .inf s, .inf t => !s || t
  | .inf s, .fin _ => !s
  | .fin _, .inf t => t
  | .fin a, .fin b => decide (a ≤ b)

/-- Sum of a list of `f32`s as Rust `Iterator::sum` folds it: from the left,
starting at `0.0`. -/
def f32sum (l : List F32) : F32 := l.foldl F32.add (.fin 0)

/-- The `u64` modulus. -/
def U64MOD : ℕ := 2 ^ 64

/-- Wrapping `u64` addition (release-build semantics of `+`). -/
def wrapAdd64 (a b : ℕ) : ℕ := (a + b) % U64MOD

/-- Wrapping `u64` subtraction (release-build semantics of `-`): for inputs
below 2^64 this is `a - b` when `b ≤ a` and `a + 2^64 - b` otherwise. -/
def wrapSub64 (a b : ℕ) : ℕ := (a % U64MOD + (U64MOD - b % U64MOD)) % U64MOD

/-- Wrapping `u64` sum as Rust `Iterator::sum::<u64>` folds it from the left. -/
def sum64 (l : List ℕ) : ℕ := l.foldl wrapAdd64 0

/-- info.rs: `ProcessData`. -/
structure ProcessData where
  pid : ℕ
  name : String
  exe : String
  state : String
  ram : ℕ
  virtual_memory : ℕ
  total_time : F32
  start_time : F32
  cpu_usage : F32
deriving DecidableEq

/-- info.rs: `User`; the uid is kept as a string, as the source does. -/
structure User where
  name : String
  uid : String
  groups : List String
deriving DecidableEq

/-- info.rs: `SystemSpec`; uptime is kept as a string, as the source does. -/
structure SystemSpec where
  os : String
  hostname : String
  kernel : String
  uptime : String
  users : List User
deriving DecidableEq

/-- info.rs: `Disk`. -/
structure Disk where
  name : String
  mount : String
  total : ℕ
  used : ℕ
  free : ℕ
  percent : F32
  fs_type : String
  is_removable : Bool
deriving DecidableEq

/-- info.rs: `Cpu`. -/
structure Cpu where
  name : String
  usage : F32
  clock_speed : F32
  vendor : String
deriving DecidableEq

/-- info.rs: `Network`. -/
structure Network where
  name : String
  mac : String
  total_sent : ℕ
  total_recv : ℕ
  total_packets_sent : ℕ
  total_packets_recv : ℕ
deriving DecidableEq

/-- info.rs: `SystemData`. -/
structure SystemData where
  cpus : List Cpu
  memory : ℕ
  swap : ℕ
  disks : List Disk
  total_memory : ℕ
  total_swap : ℕ
  networks : List Network
deriving DecidableEq

/-- info.rs: `SystemInfo`. -/
structure SystemInfo where
  usage : SystemData
  processes : List ProcessData
  spec : SystemSpec
deriving DecidableEq

/-- info.rs: `SystemInfo::new()`, the all-empty snapshot. -/
def SystemInfo.new : SystemInfo :=
  { usage :=
      { cpus := [], memory := 0, swap := 0, disks := [],
        total_memory := 0, total_swap := 0, networks := [] },
    processes := [],
    spec :=
      { os := "", hostname := "", kernel := "", uptime := "", users := [] } }

/-- info.rs lines 151-162: how `populate` builds one `Disk` from the provider's
raw name, mount, total bytes, free (available) bytes, filesystem and removable
flag. `used` is the unchecked `u64` subtraction `total - free`; `percent` is
`total as f32 / free as f32`. -/
def mkDisk (name mount : String) (total free : ℕ) (fs_type : String)
    (is_removable : Bool) : Disk :=
  { name := name, mount := mount, total := total,
    used := wrapSub64 total free,
    free := free,
    percent := F32.div (.fin total) (.fin free),
    fs_type := fs_type, is_removable := is_removable }

/-- info.rs line 183: per-process cpu usage is the provider's raw usage divided
by the number of cpus (`sys.cpus().iter().count()`). -/
def processCpuUsage (raw : F32) (ncpus : ℕ) : F32 := raw.div (.fin ncpus)

/-- main.rs lines 161-168: mean cpu usage, `sum / len as f32`, with no guard
for an empty cpu list. -/
def cpuMeanUsage (cpus : List Cpu) : F32 :=
  (f32sum (cpus.map (·.usage))).div (.fin cpus.length)

/-- main.rs lines 161-168: mean clock speed, `sum / len as f32`, with no guard
for an empty cpu list. -/
def cpuMeanClock (cpus : List Cpu) : F32 :=
  (f32sum (cpus.map (·.clock_speed))).div (.fin cpus.length)

/-- True when the character list is nonempty and all decimal digits. -/
def isDigits (cs : List Char) : Bool := !cs.isEmpty && cs.all (·.isDigit)

/-- Value of a list of decimal digit characters, most significant first. -/
def decimalVal (cs : List Char) : ℕ :=
  cs.foldl (fun acc c => 10 * acc + (c.toNat - 48)) 0

/-- main.rs line 183: `uptime.parse::<f32>().unwrap_or_default()`. The uptime
string is produced by `u64::to_string`, so it is modelled for decimal digit
strings; anything else takes the parse-failure default `0.0`. -/
def parseUptime (s : String) : ℚ :=
  if isDigits s.data then (decimalVal s.data : ℚ) else 0

/-- main.rs line 183: `uptime_days`. -/
def uptimeDays (s : String) : ℚ := parseUptime s / 86400

/-- main.rs line 185: `uptime_hours = (days - days.floor()) * 24`. -/
def uptimeHours (s : String) : ℚ := (uptimeDays s - ⌊uptimeDays s⌋) * 24

/-- main.rs line 187: `uptime_minutes = (hours - hours.floor()) * 60`. -/
def uptimeMinutes (s : String) : ℚ := (uptimeHours s - ⌊uptimeHours s⌋) * 60

/-- main.rs line 189: `uptime_seconds = (minutes - minutes.floor()) * 60`. -/
def uptimeSeconds (s : String) : ℚ := (uptimeMinutes s - ⌊uptimeMinutes s⌋) * 60

/-- The displayed uptime breakdown: the floored day/hour/minute/second fields
of main.rs lines 191-198 together with the raw uptime string that the format
string appends. -/
structure UptimeView where
  days : ℤ
  hours : ℤ
  minutes : ℤ
  seconds : ℤ
  raw : String
deriving DecidableEq

/-- main.rs lines 183-198: the uptime breakdown handed to the display. -/
def uptimeBreakdown (s : String) : UptimeView :=
  { days := ⌊uptimeDays s⌋, hours := ⌊uptimeHours s⌋,
    minutes := ⌊uptimeMinutes s⌋, seconds := ⌊uptimeSeconds s⌋, raw := s }

/-- Rust `str::parse::<u32>`: an optional leading `+`, then decimal digits,
rejecting the empty string and values at or above 2^32. -/
def parseU32core (cs : List Char) : Option ℕ :=
  if isDigits cs ∧ decimalVal cs < 2 ^ 32 then some (decimalVal cs) else none

/-- Rust `str::parse::<u32>` on a string, via its character list. -/
def parseU32 (s : String) : Option ℕ :=
  match s.data with
  | '+' :: rest => parseU32core rest
  | cs => parseU32core cs

/-- main.rs lines 211-218: the displayed user count filters users whose uid
parses (default 0 on failure) to a value strictly above 1000, maps to names,
and takes the length. -/
def privilegedUserCount (users : List User) : ℕ :=
  ((users.filter (fun u => decide (1000 < (parseU32 u.uid).getD 0))).map
    (·.name)).length

/-- main.rs lines 263-268: the network reorder. Each name of the captured
display order is looked up in the current snapshot's list with
`find(..).unwrap()`; a missing name makes the `unwrap` panic, modelled as
`none`. -/
def reorderNetworks (order : List String) (nets : List Network) :
    Option (List Network) :=
  match order with
  | [] => some []
  | n :: rest =>
    match nets.find? (fun x => x.name == n) with
    | none => none
    | some x => (reorderNetworks rest nets).map (x :: ·)

/-- The process-table comparator of main.rs line 295, as a boolean: `a` may
come before `b` when `b.cpu_usage ≤ a.cpu_usage` (descending by cpu usage).
Comparisons involving NaN are false on both sides. -/
def cpuGe (a b : ProcessData) : Bool := F32.ble b.cpu_usage a.cpu_usage

/-- Stable insertion of `x` into a sorted list: `x` is placed before the first
element it may precede, so it lands after earlier tied elements already
placed. -/
def insertLe {α : Type} (le : α → α → Bool) (x : α) : List α → List α
  | [] => [x]
  | y :: ys => if le x y then x :: y :: ys else y :: insertLe le x ys

/-- Stable insertion sort; for a total preorder this is the unique stable
order, the one Rust's stable `sort_by` produces. -/
def insSort {α : Type} (le : α → α → Bool) : List α → List α
  | [] => []
  | x :: xs => insertLe le x (insSort le xs)

/-- main.rs lines 291-295: `sorted_by(|a, b| b.cpu_usage.partial_cmp(&a
.cpu_usage).unwrap())`. The comparator unwraps `partial_cmp`, which is `None`
as soon as either side is NaN; a comparison-based sort of two or more elements
compares every element at least once, so the sort panics (modelled `none`)
exactly when the list has at least two elements and some cpu usage is NaN.
Otherwise it is the stable descending sort by cpu usage. -/
def sortedByCpuDesc (ps : List ProcessData) : Option (List ProcessData) :=
  if ps.length ≤ 1 then some ps
  else if ps.all (fun p => !p.cpu_usage.isNan) then some (insSort cpuGe ps)
  else none

/-- main.rs lines 301-305: merging one more process into an existing rollup
row of the same name: cpu usage, ram and total time are added onto the row;
pid, exe and the other fields keep the row's (first-encountered) values. -/
def mergeRow (q p : ProcessData) : ProcessData :=
  { q with cpu_usage := q.cpu_usage.add p.cpu_usage,
           ram := wrapAdd64 q.ram p.ram,
           total_time := q.total_time.add p.total_time }

/-- main.rs lines 300-309: one step of the accumulation loop: merge `p` into
the first row sharing its name, or push it at the end. -/
def addToGroups : List ProcessData → ProcessData → List ProcessData
  | [], p => [p]
  | q :: qs, p => if q.name == p.name then mergeRow q p :: qs else q :: addToGroups qs p

/-- main.rs lines 297-309: the whole accumulation loop over a process list. -/
def sumGroups (l : List ProcessData) : List ProcessData := l.foldl addToGroups []

/-- main.rs lines 289-309: the displayed process rollup: the cpu-descending
stable sort (which can panic on NaN, hence `Option`) followed by the
group-by-name summation loop. -/
def rollup (ps : List ProcessData) : Option (List ProcessData) :=
  (sortedByCpuDesc ps).map sumGroups

/-- Bytes to GB for display: `as f32 / 1024.0 / 1024.0 / 1024.0`. -/
def gbOf (bytes : ℕ) : F32 :=
  (((F32.fin bytes).div (.fin 1024)).div (.fin 1024)).div (.fin 1024)

/-- Everything the aggregation derives from one snapshot for one redraw. -/
structure AggView where
  cpu_summary : F32 × F32
  uptime : UptimeView
  privileged_users : ℕ
  ram_gb : F32 × F32
  swap_gb : F32 × F32
  disk_gb : F32 × F32
  networks : Option (List Network)
  processes : Option (List ProcessData)
deriving DecidableEq

/-- The aggregation step of one render cycle (main.rs lines 161-319): a pure
function of the snapshot and the persistent network display order. The order
is the one piece of cross-cycle state; it is returned unchanged. -/
def aggregate (order : List String) (s : SystemInfo) : AggView × List String :=
  ({ cpu_summary := (cpuMeanUsage s.usage.cpus, cpuMeanClock s.usage.cpus),
     uptime := uptimeBreakdown s.spec.uptime,
     privileged_users := privilegedUserCount s.spec.users,
     ram_gb := (gbOf s.usage.memory, gbOf s.usage.total_memory),
     swap_gb := (gbOf s.usage.swap, gbOf s.usage.total_swap),
     disk_gb := (gbOf (sum64 (s.usage.disks.map (·.used))),
                 gbOf (sum64 (s.usage.disks.map (·.total)))),
     networks := reorderNetworks order s.usage.networks,
     processes := rollup s.processes }, order)

/-! Algebra of the exact `f32` model: addition is commutative and associative
and has `0.0` as identity, so list sums are permutation-invariant. -/

theorem F32.add_comm (a b : F32) : a.add b = b.add a := by
  cases a with
  | nan => cases b <;> rfl
  | inf s => cases b with
    | nan => rfl
    | inf t => cases s <;> cases t <;> rfl
    | fin q => rfl
  | fin p => cases b with
    | nan => rfl
    | inf t => rfl
    | fin q => exact congrArg F32.fin (Rat.add_comm p q)

theorem F32.add_assoc (a b c : F32) : (a.add b).add c = a.add (b.add c) := by
  cases a with
  | nan => cases b <;> cases c <;> simp [F32.add]
  | inf s => cases b with
    | nan => cases c <;> rfl
    | inf t => cases c with
      | nan => cases s <;> cases t <;> rfl
      | inf u => cases s <;> cases t <;> cases u <;> rfl
      | fin q => cases s <;> cases t <;> rfl
    | fin q => cases c with
      | nan => rfl
      | inf u => cases s <;> cases u <;> rfl
      | fin r => rfl
  | fin p => cases b with
    | nan => cases c <;> rfl
    | inf t => cases c with
      | nan => rfl
      | inf u => cases t <;> cases u <;> rfl
      | fin r => rfl
    | fin q => cases c with
      | nan => rfl
      | inf u => rfl
      | fin r => exact congrArg F32.fin (Rat.add_assoc p q r)

theorem F32.add_zero_right (a : F32) : a.add (.fin 0) = a := by
  cases a <;> simp [F32.add]

instance : Std.Commutative F32.add := ⟨F32.add_comm⟩

instance : Std.Associative F32.add := ⟨F32.add_assoc⟩

theorem wrapAdd64_comm (a b : ℕ) : wrapAdd64 a b = wrapAdd64 b a := by
  simp [wrapAdd64, Nat.add_comm]

theorem wrapAdd64_assoc (a b c : ℕ) :
    wrapAdd64 (wrapAdd64 a b) c = wrapAdd64 a (wrapAdd64 b c) := by
  simp [wrapAdd64, Nat.mod_add_mod, Nat.add_mod_mod, Nat.add_assoc]

instance : Std.Commutative wrapAdd64 := ⟨wrapAdd64_comm⟩

instance : Std.Associative wrapAdd64 := ⟨wrapAdd64_assoc⟩

instance : LeftCommutative F32.add :=
  ⟨fun a b c => by
    rw [← F32.add_assoc, F32.add_comm a b, F32.add_assoc]⟩

instance : LeftCommutative wrapAdd64 :=
  ⟨fun a b c => by
    rw [← wrapAdd64_assoc, wrapAdd64_comm a b, wrapAdd64_assoc]⟩

/-! Concrete sample values used by witnesses and counterexamples. -/

/-- A network sample named wlan0, as in the spec's reorder example. -/
def wlan0net : Network :=
  { name := "wlan0", mac := "00:00:00:00:00:01", total_sent := 10,
    total_recv := 20, total_packets_sent := 1, total_packets_recv := 2 }

/-- A network sample named eth1, as in the spec's reorder example. -/
def eth1net : Network :=
  { name := "eth1", mac := "00:00:00:00:00:02", total_sent := 30,
    total_recv := 40, total_packets_sent := 3, total_packets_recv := 4 }

/-! C1: behaviour of the network reorder step. -/

/-- Every successful reorder lists exactly the ordered names, each row taken
from the current snapshot; interfaces of the snapshot outside the order are
ignored. -/
theorem reorderNetworks_some_spec (order : List String) (nets : List Network)
    (l : List Network) (h : reorderNetworks order nets = some l) :
    l.map (·.name) = order ∧ ∀ x ∈ l, x ∈ nets := by
  induction order generalizing l with
  | nil =>
    simp only [reorderNetworks, Option.some.injEq] at h
    subst h
    simp
  | cons n rest ih =>
    rw [reorderNetworks] at h
    cases hf : nets.find? (fun x => x.name == n) with
    | none => rw [hf] at h; exact absurd h (by simp)
    | some x =>
      rw [hf] at h
      cases hrec : reorderNetworks rest nets with
      | none => rw [hrec] at h; exact absurd h (by simp)
      | some l' =>
        rw [hrec] at h
        simp only [Option.map_some', Option.some.injEq] at h
        subst h
        obtain ⟨hnames, hmem⟩ := ih l' hrec
        have hx : x.name = n := by
          have := List.find?_some hf
          simpa using this
        refine ⟨by simp [hnames, hx], ?_⟩
        intro y hy
        rcases List.mem_cons.mp hy with hy | hy
        · subst hy; exact List.mem_of_find?_eq_some hf
        · exact hmem y hy

/-- A name of the display order with no matching interface in the current
snapshot makes the reorder panic (the `unwrap` of `None`), modelled `none`. -/
theorem reorderNetworks_missing_none (order : List String) (nets : List Network)
    (n : String) (hmem : n ∈ order) (habs : ∀ x ∈ nets, x.name ≠ n) :
    reorderNetworks order nets = none := by
  induction order with
  | nil => cases hmem
  | cons m rest ih =>
    rw [reorderNetworks]
    rcases List.mem_cons.mp hmem with hnm | hnm
    · subst hnm
      have : nets.find? (fun x => x.name == n) = none := by
        rw [List.find?_eq_none]
        intro x hx
        simpa using habs x hx
      rw [this]
    · rw [ih hnm]
      cases nets.find? (fun x => x.name == m) <;> rfl

/-- When every ordered name has a matching interface in the current snapshot,
the reorder succeeds: each lookup's `find` returns a sample, so no `unwrap`
panics. -/
theorem reorderNetworks_all_present (order : List String) (nets : List Network)
    (h : ∀ n ∈ order, ∃ x ∈ nets, x.name = n) :
    ∃ l, reorderNetworks order nets = some l := by
  induction order with
  | nil => exact ⟨[], rfl⟩
  | cons n rest ih =>
    rw [reorderNetworks]
    cases hf : nets.find? (fun x => x.name == n) with
    | none =>
      obtain ⟨x, hx, hxn⟩ := h n (List.mem_cons_self n rest)
      rw [List.find?_eq_none] at hf
      exact absurd (beq_iff_eq.mpr hxn) (hf x hx)
    | some x =>
      obtain ⟨l, hl⟩ := ih fun m hm => h m (List.mem_cons_of_mem n hm)
      exact ⟨x :: l, by
        rw [hl]
        try rfl⟩

/-- C1 (amended): the reorder produces a list exactly when every ordered name
is present in the current snapshot — an ordered name missing from the
snapshot is not dropped silently but panics the cycle, modelled as `none` —
and any produced list is the current samples arranged in display order
(names of the snapshot outside the order ignored). -/
theorem reorder_drop_behavior (order : List String) (nets : List Network) :
    ((∃ l, reorderNetworks order nets = some l) ↔
      ∀ n ∈ order, ∃ x ∈ nets, x.name = n) ∧
    (∀ l, reorderNetworks order nets = some l →
      l.map (·.name) = order ∧ ∀ x ∈ l, x ∈ nets) := by
  refine ⟨⟨?_, reorderNetworks_all_present order nets⟩, ?_⟩
  · rintro ⟨l, hl⟩ n hn
    by_contra hno
    push_neg at hno
    rw [reorderNetworks_missing_none order nets n hn hno] at hl
    cases hl
  · intro l h
    exact reorderNetworks_some_spec order nets l h

/-- C1 witness: with display order [wlan0, eth1] and a snapshot holding both
interfaces (listed in the other order), the reorder succeeds and arranges the
rows in display order. -/
theorem reorder_drop_behavior_witness :
    reorderNetworks ["wlan0", "eth1"] [eth1net, wlan0net] =
      some [wlan0net, eth1net] ∧
    (∀ n ∈ ["wlan0", "eth1"], ∃ x ∈ [eth1net, wlan0net], x.name = n) ∧
    ([wlan0net, eth1net].map (·.name) = ["wlan0", "eth1"] ∧
      ∀ x ∈ [wlan0net, eth1net], x ∈ [eth1net, wlan0net]) := by
  refine ⟨by decide, by decide, ?_⟩
  exact (reorder_drop_behavior ["wlan0", "eth1"] [eth1net, wlan0net]).2
    [wlan0net, eth1net] (by decide)

/-- C1 (counterexample): with display order `[eth0, wlan0]` and a snapshot
containing only wlan0 and eth1, the claimed result `[wlan0]` is not produced:
the lookup of eth0 panics (`none`), eth0 is not dropped silently. -/
theorem reorder_missing_panics :
    reorderNetworks ["eth0", "wlan0"] [wlan0net, eth1net] = none := by
  decide

/-! C3: CPU summary on an empty CPU list. -/

/-- C3 (amended): a snapshot with an empty CPU list makes both displayed means
the undefined `0.0 / 0.0`, which is NaN, not the claimed 0; the NaN reaches
the display since main.rs has no empty-list guard. -/
theorem cpu_summary_empty_is_nan (s : SystemInfo) (h : s.usage.cpus = []) :
    cpuMeanUsage s.usage.cpus = F32.nan ∧
    cpuMeanClock s.usage.cpus = F32.nan ∧ F32.nan ≠ F32.fin 0 := by
  rw [h]
  refine ⟨rfl, rfl, by simp⟩

/-- C3 (amended) witness: the all-empty snapshot `SystemInfo.new` hits the
NaN means. -/
theorem cpu_summary_empty_is_nan_witness :
    cpuMeanUsage SystemInfo.new.usage.cpus = F32.nan ∧
    cpuMeanClock SystemInfo.new.usage.cpus = F32.nan ∧ F32.nan ≠ F32.fin 0 :=
  cpu_summary_empty_is_nan SystemInfo.new rfl

/-- C3 (counterexample): aggregating a snapshot with zero CPUs reports NaN
for both mean usage and mean clock speed, not the claimed 0. -/
theorem cpu_summary_empty_counterexample :
    (aggregate [] SystemInfo.new).1.cpu_summary = (F32.nan, F32.nan) ∧
    F32.nan ≠ F32.fin 0 := by
  refine ⟨rfl, by simp⟩

/-! C4 and C5: the derived disk fields. -/

/-- C4: the percent field is `total / free`, not `used / total`: a half-full
disk (total 100, free 50) gets percent 2 instead of 1/2, and a disk with
total = 0 (hence free = 0) gets NaN, not a finite sentinel. -/
theorem disk_percent_mismatch :
    (mkDisk "sda" "/" 100 50 "ext4" false).percent = F32.fin 2 ∧
    F32.fin 2 ≠ F32.fin (1 / 2) ∧
    (mkDisk "sdb" "/mnt" 0 0 "ext4" false).percent = F32.nan := by
  refine ⟨?_, by norm_num, rfl⟩
  show F32.div (.fin 100) (.fin 50) = F32.fin 2
  norm_num [F32.div]

/-- C5: the used field is the unchecked `u64` subtraction `total - free`: when
a provider transiently reports free > total (total 0, free 1) it wraps to
2^64 - 1 instead of clamping to 0; in the normal case it is total - free. -/
theorem disk_used_wraps :
    (mkDisk "sda" "/" 0 1 "ext4" false).used = 2 ^ 64 - 1 ∧
    (mkDisk "sdb" "/mnt" 100 40 "ext4" false).used = 60 := by
  constructor <;> decide

/-! C8: the privileged-user count. -/

/-- The four users of the spec's concrete example, uids 500, 1000, 1001,
2000. -/
def demoUsers : List User :=
  [{ name := "alice", uid := "500", groups := [] },
   { name := "bob", uid := "1000", groups := [] },
   { name := "carol", uid := "1001", groups := [] },
   { name := "dave", uid := "2000", groups := [] }]

/-- C8: the displayed count equals the number of user entries whose uid
parses (as u32, defaulting to 0) strictly above 1000; on uids 500, 1000,
1001, 2000 it is 2. -/
theorem privileged_count_spec :
    (∀ users : List User, privilegedUserCount users =
      (users.filter (fun u => decide (1000 < (parseU32 u.uid).getD 0))).length) ∧
    privilegedUserCount demoUsers = 2 := by
  constructor
  · intro users
    simp [privilegedUserCount]
  · decide

/-! C9: the aggregation is a pure function of the snapshot and the display
order. -/

/-- C9: one aggregation pass leaves the persistent display order unchanged,
and running the whole Aggregator a second time on the same snapshot (with the
state the first run returned) yields the identical output and state: there is
no hidden state mutation in the embedding of main.rs lines 161-319. -/
theorem aggregate_idempotent (order : List String) (s : SystemInfo) :
    (aggregate order s).2 = order ∧
    aggregate ((aggregate order s).2) s = aggregate order s :=
  ⟨rfl, rfl⟩

/-! C10: NaN, infinities and the process sort precondition. -/

/-- A process whose cpu usage came out +∞ (raw usage 5 divided by a zero CPU
count). -/
def procInfA : ProcessData :=
  { pid := 1, name := "a", exe := "/a", state := "Run", ram := 1,
    virtual_memory := 1, total_time := .fin 1, start_time := .fin 0,
    cpu_usage := processCpuUsage (.fin 5) 0 }

/-- A second such process. -/
def procInfB : ProcessData :=
  { pid := 2, name := "b", exe := "/b", state := "Run", ram := 2,
    virtual_memory := 2, total_time := .fin 1, start_time := .fin 0,
    cpu_usage := processCpuUsage (.fin 7) 0 }

/-- C10 (counterexample): with zero CPUs, a process with nonzero raw usage
gets cpu usage +∞, which is not NaN — so the claim that an empty CPU list
makes every process's cpu usage NaN fails — and the sort of two such
processes succeeds. -/
theorem zero_cpus_not_all_nan :
    processCpuUsage (F32.fin 5) 0 = F32.inf true ∧
    (F32.inf true).isNan = false ∧
    sortedByCpuDesc [procInfA, procInfB] = some [procInfA, procInfB] := by
  refine ⟨rfl, rfl, ?_⟩
  decide

/-- C10 (amended): the sort panics (comparator unwraps `partial_cmp` = `None`)
exactly when the list has at least two processes and some cpu usage is NaN;
with zero CPUs a process's cpu usage is raw/0, which is NaN exactly for raw
usage 0 and a signed infinity otherwise — so a zero-CPU snapshot breaks the
sort precondition only through its zero-raw-usage processes. -/
theorem sort_nan_precondition (ps : List ProcessData) (q : ℚ) :
    (sortedByCpuDesc ps = none ↔
      2 ≤ ps.length ∧ ∃ p ∈ ps, p.cpu_usage.isNan = true) ∧
    processCpuUsage (F32.fin q) 0 =
      (if q = 0 then F32.nan else if q < 0 then F32.inf false else F32.inf true) := by
  constructor
  · unfold sortedByCpuDesc
    split_ifs with h1 h2
    · constructor
      · intro h; cases h
      · rintro ⟨h2', -⟩; omega
    · constructor
      · intro h; cases h
      · rintro ⟨-, p, hp, hnan⟩
        rw [List.all_eq_true] at h2
        have := h2 p hp
        rw [hnan] at this
        cases this
    · refine iff_of_true rfl ⟨by omega, ?_⟩
      rw [List.all_eq_true] at h2
      push_neg at h2
      obtain ⟨p, hp, hb⟩ := h2
      exact ⟨p, hp, by revert hb; cases p.cpu_usage.isNan <;> simp⟩
  · show F32.div (.fin q) (.fin ((0 : ℕ) : ℚ)) = _
    norm_num [F32.div]

/-! C6: the uptime breakdown. Over the exact arithmetic of the model the
fraction-and-multiply scheme of main.rs lines 183-198 coincides with
successive floor/modulo on the raw seconds. -/

/-- Floor of a quotient of naturals over ℚ is natural division. -/
theorem floor_natCast_div (m k : ℕ) :
    ⌊(m : ℚ) / (k : ℚ)⌋ = ((m / k : ℕ) : ℤ) := by
  rw [Rat.floor_natCast_div_natCast]
  exact (Int.ofNat_ediv m k).symm

/-- Fractional part of a quotient of naturals over ℚ is the remainder over the
divisor. -/
theorem fract_natCast_div (m k : ℕ) (hk : 0 < k) :
    (m : ℚ) / (k : ℚ) - (⌊(m : ℚ) / (k : ℚ)⌋ : ℚ) =
      ((m % k : ℕ) : ℚ) / (k : ℚ) := by
  have hkq : (k : ℚ) ≠ 0 := by positivity
  have key : (m : ℚ) = (k : ℚ) * ((m / k : ℕ) : ℚ) + ((m % k : ℕ) : ℚ) := by
    exact_mod_cast (Nat.div_add_mod m k).symm
  rw [floor_natCast_div, eq_div_iff hkq, sub_mul, div_mul_cancel₀ _ hkq,
    Int.cast_natCast]
  linarith [key]

/-- C6: for every uptime string that parses to the non-negative seconds value
u, the displayed breakdown is exactly the successive floor/modulo
decomposition — days = u / 86400, hours = u % 86400 / 3600, minutes =
u % 3600 / 60, seconds = u % 60 — with the raw string preserved alongside. -/
theorem uptime_breakdown_floor_mod (s : String) (u : ℕ)
    (h : parseUptime s = (u : ℚ)) :
    uptimeBreakdown s =
      { days := ((u / 86400 : ℕ) : ℤ), hours := ((u % 86400 / 3600 : ℕ) : ℤ),
        minutes := ((u % 3600 / 60 : ℕ) : ℤ), seconds := ((u % 60 : ℕ) : ℤ),
        raw := s } := by
  have c86400 : ((86400 : ℕ) : ℚ) = 86400 := by norm_num
  have c3600 : ((3600 : ℕ) : ℚ) = 3600 := by norm_num
  have c60 : ((60 : ℕ) : ℚ) = 60 := by norm_num
  have hd : uptimeDays s = (u : ℚ) / ((86400 : ℕ) : ℚ) := by
    rw [uptimeDays, h, c86400]
  have hdf : ⌊uptimeDays s⌋ = ((u / 86400 : ℕ) : ℤ) := by
    rw [hd, floor_natCast_div]
  have hh : uptimeHours s = ((u % 86400 : ℕ) : ℚ) / ((3600 : ℕ) : ℚ) := by
    rw [uptimeHours, hd]
    rw [show ((⌊(u : ℚ) / ((86400 : ℕ) : ℚ)⌋ : ℚ)) =
        (((u / 86400 : ℕ) : ℤ) : ℚ) from by rw [floor_natCast_div]]
    rw [show (u : ℚ) / ((86400 : ℕ) : ℚ) - (((u / 86400 : ℕ) : ℤ) : ℚ) =
        ((u % 86400 : ℕ) : ℚ) / ((86400 : ℕ) : ℚ) from by
      rw [← floor_natCast_div]
      exact fract_natCast_div u 86400 (by norm_num)]
    rw [c86400, c3600]
    ring
  have hhf : ⌊uptimeHours s⌋ = ((u % 86400 / 3600 : ℕ) : ℤ) := by
    rw [hh, floor_natCast_div]
  have hm : uptimeMinutes s = ((u % 3600 : ℕ) : ℚ) / ((60 : ℕ) : ℚ) := by
    rw [uptimeMinutes, hh]
    rw [show ((⌊((u % 86400 : ℕ) : ℚ) / ((3600 : ℕ) : ℚ)⌋ : ℚ)) =
        (((u % 86400 / 3600 : ℕ) : ℤ) : ℚ) from by rw [floor_natCast_div]]
    rw [show ((u % 86400 : ℕ) : ℚ) / ((3600 : ℕ) : ℚ) -
        (((u % 86400 / 3600 : ℕ) : ℤ) : ℚ) =
        ((u % 86400 % 3600 : ℕ) : ℚ) / ((3600 : ℕ) : ℚ) from by
      rw [← floor_natCast_div]
      exact fract_natCast_div (u % 86400) 3600 (by norm_num)]
    rw [Nat.mod_mod_of_dvd u (by norm_num : (3600 : ℕ) ∣ 86400)]
    rw [c3600, c60]
    ring
  have hmf : ⌊uptimeMinutes s⌋ = ((u % 3600 / 60 : ℕ) : ℤ) := by
    rw [hm, floor_natCast_div]
  have hs : uptimeSeconds s = ((u % 60 : ℕ) : ℚ) := by
    rw [uptimeSeconds, hm]
    rw [show ((⌊((u % 3600 : ℕ) : ℚ) / ((60 : ℕ) : ℚ)⌋ : ℚ)) =
        (((u % 3600 / 60 : ℕ) : ℤ) : ℚ) from by rw [floor_natCast_div]]
    rw [show ((u % 3600 : ℕ) : ℚ) / ((60 : ℕ) : ℚ) -
        (((u % 3600 / 60 : ℕ) : ℤ) : ℚ) =
        ((u % 3600 % 60 : ℕ) : ℚ) / ((60 : ℕ) : ℚ) from by
      rw [← floor_natCast_div]
      exact fract_natCast_div (u % 3600) 60 (by norm_num)]
    rw [Nat.mod_mod_of_dvd u (by norm_num : (60 : ℕ) ∣ 3600)]
    rw [c60]
    field_simp
  have hsf : ⌊uptimeSeconds s⌋ = ((u % 60 : ℕ) : ℤ) := by
    rw [hs]
    exact_mod_cast Int.floor_natCast (u % 60)
  simp only [uptimeBreakdown, UptimeView.mk.injEq]
  exact ⟨hdf, hhf, hmf, hsf, trivial⟩

/-- C6 witness: uptime 90061 seconds displays as 1 day, 1 hour, 1 minute,
1 second, with the raw string preserved. -/
theorem uptime_breakdown_90061 :
    uptimeBreakdown "90061" =
      { days := 1, hours := 1, minutes := 1, seconds := 1, raw := "90061" } := by
  have hdig : isDigits "90061".data = true := by decide
  have hval : decimalVal "90061".data = 90061 := by decide
  have h : parseUptime "90061" = ((90061 : ℕ) : ℚ) := by
    simp [parseUptime, hdig, hval]
  rw [uptime_breakdown_floor_mod "90061" 90061 h]
  norm_num

/-! Sorting lemmas: the stable insertion sort permutes its input and, when the
comparator is transitive and total on the elements at hand, sorts it. -/

theorem insertLe_perm {α : Type} (le : α → α → Bool) (x : α) (l : List α) :
    (insertLe le x l).Perm (x :: l) := by
  induction l with
  | nil => exact List.Perm.refl _
  | cons y ys ih =>
    rw [insertLe]
    by_cases h : le x y = true
    · rw [if_pos h]
    · rw [if_neg h]
      exact (ih.cons y).trans (List.Perm.swap x y ys)

theorem insSort_perm {α : Type} (le : α → α → Bool) (l : List α) :
    (insSort le l).Perm l := by
  induction l with
  | nil => exact List.Perm.refl _
  | cons x xs ih => exact (insertLe_perm le x (insSort le xs)).trans (ih.cons x)

theorem insertLe_pairwise {α : Type} (le : α → α → Bool)
    (htr : ∀ a b c, le a b = true → le b c = true → le a c = true)
    (x : α) (l : List α)
    (htot : ∀ y ∈ l, le x y = true ∨ le y x = true)
    (hl : l.Pairwise (fun a b => le a b = true)) :
    (insertLe le x l).Pairwise (fun a b => le a b = true) := by
  induction l with
  | nil => simp [insertLe]
  | cons y ys ih =>
    rw [insertLe]
    rcases List.pairwise_cons.mp hl with ⟨hy, hys⟩
    by_cases h : le x y = true
    · rw [if_pos h]
      refine List.pairwise_cons.mpr ⟨?_, hl⟩
      intro z hz
      rcases List.mem_cons.mp hz with rfl | hz
      · exact h
      · exact htr x y z h (hy z hz)
    · rw [if_neg h]
      have hyx : le y x = true := by
        rcases htot y (List.mem_cons_self y ys) with h' | h'
        · exact absurd h' h
        · exact h'
      refine List.pairwise_cons.mpr
        ⟨?_, ih (fun z hz => htot z (List.mem_cons_of_mem y hz)) hys⟩
      intro z hz
      have hz' : z ∈ x :: ys := (insertLe_perm le x ys).mem_iff.mp hz
      rcases List.mem_cons.mp hz' with rfl | hz'
      · exact hyx
      · exact hy z hz'

theorem insSort_pairwise {α : Type} (le : α → α → Bool)
    (htr : ∀ a b c, le a b = true → le b c = true → le a c = true)
    (l : List α)
    (htot : ∀ a ∈ l, ∀ b ∈ l, le a b = true ∨ le b a = true) :
    (insSort le l).Pairwise (fun a b => le a b = true) := by
  induction l with
  | nil => simp [insSort]
  | cons x xs ih =>
    rw [insSort]
    refine insertLe_pairwise le htr x (insSort le xs) ?_ ?_
    · intro y hy
      have hmem : y ∈ xs := (insSort_perm le xs).mem_iff.mp hy
      exact htot x (List.mem_cons_self x xs) y (List.mem_cons_of_mem x hmem)
    · exact ih fun a ha b hb =>
        htot a (List.mem_cons_of_mem x ha) b (List.mem_cons_of_mem x hb)

/-- IEEE `≤` is transitive (any true comparison excludes NaN operands). -/
theorem F32.ble_trans (a b c : F32) (h1 : a.ble b = true) (h2 : b.ble c = true) :
    a.ble c = true := by
  cases a with
  | nan => simp [F32.ble] at h1
  | inf s =>
    cases b with
    | nan => simp [F32.ble] at h1
    | inf t =>
      cases c with
      | nan => simp [F32.ble] at h2
      | inf u =>
        simp only [F32.ble] at h1 h2 ⊢
        cases s <;> cases t <;> cases u <;> simp_all
      | fin r =>
        simp only [F32.ble] at h1 h2 ⊢
        cases s <;> cases t <;> simp_all
    | fin q =>
      cases c with
      | nan => simp [F32.ble] at h2
      | inf u =>
        simp only [F32.ble] at h1 h2 ⊢
        cases s <;> cases u <;> simp_all
      | fin r =>
        simp only [F32.ble] at h1 h2 ⊢
        cases s <;> simp_all
  | fin p =>
    cases b with
    | nan => simp [F32.ble] at h1
    | inf t =>
      cases c with
      | nan => simp [F32.ble] at h2
      | inf u =>
        simp only [F32.ble] at h1 h2 ⊢
        cases t <;> cases u <;> simp_all
      | fin r =>
        simp only [F32.ble] at h1 h2 ⊢
        cases t <;> simp_all
    | fin q =>
      cases c with
      | nan => simp [F32.ble] at h2
      | inf u =>
        simp only [F32.ble] at h1 h2 ⊢
        cases u <;> simp_all
      | fin r =>
        simp only [F32.ble, decide_eq_true_eq] at h1 h2 ⊢
        exact le_trans h1 h2

/-- IEEE `≤` is total on non-NaN values. -/
theorem F32.ble_total (a b : F32) (ha : a.isNan = false) (hb : b.isNan = false) :
    a.ble b = true ∨ b.ble a = true := by
  cases a with
  | nan => simp [F32.isNan] at ha
  | inf s =>
    cases b with
    | nan => simp [F32.isNan] at hb
    | inf t =>
      simp only [F32.ble]
      cases s <;> cases t <;> simp
    | fin q =>
      simp only [F32.ble]
      cases s <;> simp
  | fin p =>
    cases b with
    | nan => simp [F32.isNan] at hb
    | inf t =>
      simp only [F32.ble]
      cases t <;> simp
    | fin q =>
      simp only [F32.ble, decide_eq_true_eq]
      exact le_total p q

/-- The process comparator is transitive. -/
theorem cpuGe_trans (a b c : ProcessData) (h1 : cpuGe a b = true)
    (h2 : cpuGe b c = true) : cpuGe a c = true :=
  F32.ble_trans c.cpu_usage b.cpu_usage a.cpu_usage h2 h1

/-- The process comparator is total on processes with non-NaN cpu usage. -/
theorem cpuGe_total (a b : ProcessData) (ha : a.cpu_usage.isNan = false)
    (hb : b.cpu_usage.isNan = false) :
    cpuGe a b = true ∨ cpuGe b a = true :=
  (F32.ble_total b.cpu_usage a.cpu_usage hb ha).elim Or.inl Or.inr

/-! The grouping loop on lists of pairwise-distinct names is the identity, and
the sort step of the rollup permutes and orders the processes. -/

/-- The merged rollup row keeps the first-encountered row's name. -/
theorem mergeRow_name (q p : ProcessData) : (mergeRow q p).name = q.name := rfl

theorem addToGroups_notmem (p : ProcessData) :
    ∀ acc : List ProcessData, p.name ∉ acc.map (·.name) →
      addToGroups acc p = acc ++ [p] := by
  intro acc
  induction acc with
  | nil => intro _; rfl
  | cons q qs ih =>
    intro h
    rw [addToGroups]
    have hq : ¬q.name = p.name := by
      intro e
      exact h (by simp [← e])
    rw [if_neg (by simpa using hq)]
    rw [ih fun hm => h (by simp [List.mem_cons]; right; simpa using hm)]
    rfl

theorem foldl_addToGroups_nodup :
    ∀ (l acc : List ProcessData), ((acc ++ l).map (·.name)).Nodup →
      l.foldl addToGroups acc = acc ++ l := by
  intro l
  induction l with
  | nil => intro acc _; simp
  | cons p l ih =>
    intro acc h
    rw [List.foldl_cons]
    have h' := h
    rw [List.map_append, List.nodup_append] at h'
    have hnm : p.name ∉ acc.map (·.name) := fun hm =>
      h'.2.2 hm (by simp)
    rw [addToGroups_notmem p acc hnm]
    rw [ih (acc ++ [p]) (by simpa [List.append_assoc] using h)]
    simp

/-- On a process list with pairwise-distinct names, the grouping loop merges
nothing. -/
theorem sumGroups_nodup (l : List ProcessData)
    (h : (l.map (·.name)).Nodup) : sumGroups l = l := by
  rw [sumGroups, foldl_addToGroups_nodup l [] (by simpa using h)]
  simp

/-- A successful sort is a permutation of the snapshot's process list. -/
theorem sortedByCpuDesc_perm (ps l : List ProcessData)
    (h : sortedByCpuDesc ps = some l) : l.Perm ps := by
  rw [sortedByCpuDesc] at h
  split_ifs at h with h1 h2
  · cases h; exact List.Perm.refl _
  · cases h; exact insSort_perm cpuGe ps

/-- A process list with no NaN cpu usage sorts successfully, to the stable
descending insertion sort. -/
theorem sortedByCpuDesc_eq_insSort (ps : List ProcessData)
    (hnan : ∀ p ∈ ps, p.cpu_usage.isNan = false) :
    sortedByCpuDesc ps = some (insSort cpuGe ps) := by
  rw [sortedByCpuDesc]
  by_cases h1 : ps.length ≤ 1
  · rw [if_pos h1]
    cases ps with
    | nil => rfl
    | cons x xs =>
      cases xs with
      | nil => rfl
      | cons y ys => simp at h1
  · have hall : ps.all (fun p => !p.cpu_usage.isNan) = true := by
      rw [List.all_eq_true]
      intro p hp
      simp [hnan p hp]
    rw [if_neg h1, if_pos hall]

/-- C2 (amended): the rollup rows appear in first-encounter order of the
cpu-descending stably-sorted process list, which orders groups by their
maximum member's cpu usage, not by their summed usage; when every process
name is distinct (each group a single sample, so max = sum), the rollup is
exactly the stable descending sort: sorted pairwise descending by cpu usage,
a permutation of the snapshot's processes, with ties left in pre-sort
order. -/
theorem rollup_distinct_names_sorted (ps : List ProcessData)
    (hnodup : (ps.map (·.name)).Nodup)
    (hnan : ∀ p ∈ ps, p.cpu_usage.isNan = false) :
    rollup ps = some (insSort cpuGe ps) ∧
    (insSort cpuGe ps).Pairwise (fun a b => cpuGe a b = true) ∧
    (insSort cpuGe ps).Perm ps := by
  have hperm : (insSort cpuGe ps).Perm ps := insSort_perm cpuGe ps
  refine ⟨?_, ?_, hperm⟩
  · rw [rollup, sortedByCpuDesc_eq_insSort ps hnan, Option.map_some']
    congr 1
    apply sumGroups_nodup
    have hp : ((insSort cpuGe ps).map (·.name)).Perm (ps.map (·.name)) :=
      hperm.map _
    exact hp.nodup_iff.mpr hnodup
  · apply insSort_pairwise cpuGe cpuGe_trans
    intro a ha b hb
    exact cpuGe_total a b (hnan a ha) (hnan b hb)

/-- The process named A with cpu usage 3 from the spec's ordering example. -/
def procA : ProcessData :=
  { pid := 1, name := "A", exe := "/bin/a", state := "Run", ram := 100,
    virtual_memory := 200, total_time := .fin 5, start_time := .fin 0,
    cpu_usage := .fin 3 }

/-- The process named B with cpu usage 9 from the spec's ordering example. -/
def procB : ProcessData :=
  { pid := 2, name := "B", exe := "/bin/b", state := "Run", ram := 100,
    virtual_memory := 200, total_time := .fin 5, start_time := .fin 0,
    cpu_usage := .fin 9 }

/-- The process named C with cpu usage 1 from the spec's ordering example. -/
def procC : ProcessData :=
  { pid := 3, name := "C", exe := "/bin/c", state := "Run", ram := 100,
    virtual_memory := 200, total_time := .fin 5, start_time := .fin 0,
    cpu_usage := .fin 1 }

/-- C2 witness: on the distinct-named input (A,3), (B,9), (C,1) the rollup is
produced, sorted and a permutation, and its row order is B, A, C. -/
theorem rollup_distinct_names_sorted_witness :
    (rollup [procA, procB, procC] =
        some (insSort cpuGe [procA, procB, procC]) ∧
      (insSort cpuGe [procA, procB, procC]).Pairwise
        (fun a b => cpuGe a b = true) ∧
      (insSort cpuGe [procA, procB, procC]).Perm [procA, procB, procC]) ∧
    (insSort cpuGe [procA, procB, procC]).map (·.name) = ["B", "A", "C"] := by
  constructor
  · exact rollup_distinct_names_sorted [procA, procB, procC]
      (by decide) (by decide)
  · norm_num [insSort, insertLe, cpuGe, F32.ble, procA, procB, procC]

/-- First process named A with cpu usage 5 (counterexample input). -/
def procA5a : ProcessData :=
  { pid := 1, name := "A", exe := "/bin/a", state := "Run", ram := 10,
    virtual_memory := 20, total_time := .fin 1, start_time := .fin 0,
    cpu_usage := .fin 5 }

/-- Second process named A with cpu usage 5 (counterexample input). -/
def procA5b : ProcessData :=
  { pid := 2, name := "A", exe := "/bin/a", state := "Run", ram := 10,
    virtual_memory := 20, total_time := .fin 1, start_time := .fin 0,
    cpu_usage := .fin 5 }

/-- The process named B with cpu usage 6 (counterexample input). -/
def procB6 : ProcessData :=
  { pid := 3, name := "B", exe := "/bin/b", state := "Run", ram := 10,
    virtual_memory := 20, total_time := .fin 1, start_time := .fin 0,
    cpu_usage := .fin 6 }

/-- C2 (counterexample): on processes (A,5), (A,5), (B,6) the rollup rows are
B with summed usage 6 followed by A with summed usage 10 — not sorted
descending by summed cpu usage, since 10 does not come first. The code sorts
individual processes before grouping, so groups follow their maximum member,
not their sum. -/
theorem rollup_not_sum_sorted :
    (rollup [procA5a, procA5b, procB6]).map
        (fun rows => rows.map fun r => (r.name, r.cpu_usage)) =
      some [("B", F32.fin 6), ("A", F32.fin 10)] ∧
    F32.ble (F32.fin 10) (F32.fin 6) = false := by
  constructor
  · norm_num [rollup, sortedByCpuDesc, insSort, insertLe, cpuGe, F32.ble,
      F32.isNan, sumGroups, addToGroups, mergeRow, F32.add, wrapAdd64, U64MOD,
      procA5a, procA5b, procB6]
    simp
  · norm_num [F32.ble]

/-! Invariants of the grouping loop: per-name row counts and per-name field
sums, used to settle the rollup summation claim. -/

/-- Number of rows of `l` named `n`. -/
def countName (n : String) (l : List ProcessData) : ℕ :=
  (l.filter (fun p => p.name == n)).length

/-- The `g`-fields of the rows of `l` named `n`, combined with `op` from
`e`. -/
def fieldSum {β : Type} (g : ProcessData → β) (op : β → β → β) (e : β)
    (n : String) (l : List ProcessData) : β :=
  ((l.filter (fun p => p.name == n)).map g).foldr op e

theorem fieldSum_nil {β : Type} (g : ProcessData → β) (op : β → β → β) (e : β)
    (n : String) : fieldSum g op e n [] = e := rfl

theorem fieldSum_cons {β : Type} (g : ProcessData → β) (op : β → β → β)
    (e : β) (n : String) (q : ProcessData) (l : List ProcessData) :
    fieldSum g op e n (q :: l) =
      if q.name = n then op (g q) (fieldSum g op e n l)
      else fieldSum g op e n l := by
  by_cases h : q.name = n <;> simp [fieldSum, h]

theorem fieldSum_addToGroups {β : Type} (g : ProcessData → β)
    (op : β → β → β) (e : β)
    (hmerge : ∀ q p, g (mergeRow q p) = op (g q) (g p))
    (hcomm : ∀ a b, op a b = op b a)
    (hassoc : ∀ a b c, op (op a b) c = op a (op b c))
    (n : String) (acc : List ProcessData) (p : ProcessData) :
    fieldSum g op e n (addToGroups acc p) =
      if p.name = n then op (fieldSum g op e n acc) (g p)
      else fieldSum g op e n acc := by
  induction acc with
  | nil =>
    rw [show addToGroups [] p = [p] from rfl]
    by_cases h : p.name = n
    · rw [if_pos h, fieldSum_cons, if_pos h, fieldSum_nil, hcomm]
    · rw [if_neg h, fieldSum_cons, if_neg h]
  | cons q qs ih =>
    rw [addToGroups]
    by_cases hqp : q.name = p.name
    · rw [if_pos (beq_iff_eq.mpr hqp), fieldSum_cons, fieldSum_cons,
        mergeRow_name]
      by_cases hn : p.name = n
      · have hqn : q.name = n := hqp.trans hn
        rw [if_pos hn, if_pos hqn, if_pos hqn, hmerge, hassoc,
          hcomm (g p) (fieldSum g op e n qs), ← hassoc]
      · have hqn : ¬q.name = n := fun hq => hn (hqp.symm.trans hq)
        rw [if_neg hn, if_neg hqn, if_neg hqn]
    · rw [if_neg (fun hb => hqp (beq_iff_eq.mp hb)), fieldSum_cons,
        fieldSum_cons, ih]
      split_ifs <;> first | rfl | exact (hassoc _ _ _).symm

theorem fieldSum_foldl {β : Type} (g : ProcessData → β) (op : β → β → β)
    (e : β) (hmerge : ∀ q p, g (mergeRow q p) = op (g q) (g p))
    (hcomm : ∀ a b, op a b = op b a)
    (hassoc : ∀ a b c, op (op a b) c = op a (op b c))
    (hre : ∀ (l : List ProcessData) (n : String),
      op (fieldSum g op e n l) e = fieldSum g op e n l)
    (n : String) (l acc : List ProcessData) :
    fieldSum g op e n (l.foldl addToGroups acc) =
      op (fieldSum g op e n acc) (fieldSum g op e n l) := by
  induction l generalizing acc with
  | nil => rw [List.foldl_nil, fieldSum_nil, hre]
  | cons p t ihl =>
    rw [List.foldl_cons, ihl (addToGroups acc p),
      fieldSum_addToGroups g op e hmerge hcomm hassoc, fieldSum_cons]
    split_ifs with hpn
    · rw [hassoc]
    · rfl

theorem fieldSum_sumGroups {β : Type} (g : ProcessData → β) (op : β → β → β)
    (e : β) (hmerge : ∀ q p, g (mergeRow q p) = op (g q) (g p))
    (hcomm : ∀ a b, op a b = op b a)
    (hassoc : ∀ a b c, op (op a b) c = op a (op b c))
    (hre : ∀ (l : List ProcessData) (n : String),
      op (fieldSum g op e n l) e = fieldSum g op e n l)
    (n : String) (l : List ProcessData) :
    fieldSum g op e n (sumGroups l) = fieldSum g op e n l := by
  rw [sumGroups, fieldSum_foldl g op e hmerge hcomm hassoc hre, fieldSum_nil,
    hcomm, hre]

theorem countName_nil (n : String) : countName n [] = 0 := rfl

theorem countName_cons (n : String) (q : ProcessData)
    (l : List ProcessData) :
    countName n (q :: l) = (if q.name = n then 1 else 0) + countName n l := by
  by_cases h : q.name = n <;> simp [countName, h, Nat.add_comm]

theorem countName_addToGroups (n : String) (p : ProcessData) :
    ∀ acc : List ProcessData,
      countName n (addToGroups acc p) =
        if p.name = n ∧ countName n acc = 0 then 1 else countName n acc := by
  intro acc
  induction acc with
  | nil =>
    rw [show addToGroups [] p = [p] from rfl, countName_cons, countName_nil]
    by_cases h : p.name = n
    · rw [if_pos h, if_pos ⟨h, rfl⟩]
    · rw [if_neg h, if_neg fun hc => h hc.1]
  | cons q qs ih =>
    rw [addToGroups]
    by_cases hqp : q.name = p.name
    · rw [if_pos (beq_iff_eq.mpr hqp), countName_cons, countName_cons,
        mergeRow_name]
      by_cases hn : p.name = n
      · have hqn : q.name = n := hqp.trans hn
        rw [if_pos hqn, if_neg fun hc => absurd hc.2 (by omega)]
      · have hqn : ¬q.name = n := fun hq => hn (hqp.symm.trans hq)
        rw [if_neg hqn, if_neg fun hc => hn hc.1]
    · rw [if_neg (fun hb => hqp (beq_iff_eq.mp hb)), countName_cons,
        countName_cons, ih]
      by_cases hqn : q.name = n
      · by_cases hpn : p.name = n
        · exact absurd (hqn.trans hpn.symm) hqp
        · rw [if_pos hqn, if_neg fun hc => hpn hc.1,
            if_neg fun hc => hpn hc.1]
      · rw [if_neg hqn]
        simp only [Nat.zero_add]

theorem countName_foldl (n : String) :
    ∀ l acc : List ProcessData,
      countName n (l.foldl addToGroups acc) =
        if countName n acc = 0 then (if n ∈ l.map (·.name) then 1 else 0)
        else countName n acc := by
  intro l
  induction l with
  | nil =>
    intro acc
    rw [List.foldl_nil]
    by_cases h : countName n acc = 0
    · rw [if_pos h, if_neg (by simp)]
      omega
    · rw [if_neg h]
  | cons p t ih =>
    intro acc
    rw [List.foldl_cons, ih (addToGroups acc p), countName_addToGroups,
      List.map_cons]
    by_cases hpn : p.name = n
    · have hmp : n ∈ p.name :: t.map (·.name) :=
        List.mem_cons.mpr (Or.inl hpn.symm)
      rw [if_pos hmp]
      by_cases hz : countName n acc = 0
      · rw [if_pos (show p.name = n ∧ countName n acc = 0 from ⟨hpn, hz⟩),
          if_neg (show ¬(1 : ℕ) = 0 by norm_num), if_pos hz]
      · rw [if_neg (show ¬(p.name = n ∧ countName n acc = 0) from
            fun hand => hz hand.2), if_neg hz, if_neg hz]
    · rw [if_neg (show ¬(p.name = n ∧ countName n acc = 0) from
        fun hand => hpn hand.1)]
      by_cases hz : countName n acc = 0
      · rw [if_pos hz, if_pos hz]
        by_cases hm : n ∈ t.map (·.name)
        · rw [if_pos hm, if_pos (List.mem_cons.mpr (Or.inr hm))]
        · rw [if_neg hm, if_neg fun hc =>
            (List.mem_cons.mp hc).elim (fun he => hpn he.symm) hm]
      · rw [if_neg hz, if_neg hz]

theorem countName_sumGroups (n : String) (l : List ProcessData) :
    countName n (sumGroups l) = if n ∈ l.map (·.name) then 1 else 0 := by
  rw [sumGroups, countName_foldl n l [],
    if_pos (show countName n [] = 0 from rfl)]

theorem wrapAdd64_lt (a b : ℕ) : wrapAdd64 a b < U64MOD := by
  rw [wrapAdd64]
  exact Nat.mod_lt _ (by norm_num [U64MOD])

theorem fieldSum_ram_lt (n : String) (l : List ProcessData) :
    fieldSum (fun p => p.ram) wrapAdd64 0 n l < U64MOD := by
  induction l with
  | nil => rw [fieldSum_nil]; norm_num [U64MOD]
  | cons q t ih =>
    rw [fieldSum_cons]
    by_cases h : q.name = n
    · rw [if_pos h]; exact wrapAdd64_lt _ _
    · rw [if_neg h]; exact ih

theorem addToGroups_ram_lt (p : ProcessData) (hp : p.ram < U64MOD) :
    ∀ acc : List ProcessData, (∀ q ∈ acc, q.ram < U64MOD) →
      ∀ q ∈ addToGroups acc p, q.ram < U64MOD := by
  intro acc
  induction acc with
  | nil =>
    intro _ q hq
    rw [show addToGroups [] p = [p] from rfl] at hq
    rcases List.mem_cons.mp hq with rfl | hq
    · exact hp
    · cases hq
  | cons r rs ih =>
    intro hacc q hq
    rw [addToGroups] at hq
    by_cases hrp : r.name = p.name
    · rw [if_pos (beq_iff_eq.mpr hrp)] at hq
      rcases List.mem_cons.mp hq with rfl | hq
      · exact wrapAdd64_lt r.ram p.ram
      · exact hacc q (List.mem_cons_of_mem r hq)
    · rw [if_neg (fun hb => hrp (beq_iff_eq.mp hb))] at hq
      rcases List.mem_cons.mp hq with rfl | hq
      · exact hacc _ (List.mem_cons_self _ _)
      · exact ih (fun a ha => hacc a (List.mem_cons_of_mem r ha)) q hq

theorem sumGroups_ram_lt (l : List ProcessData)
    (hl : ∀ p ∈ l, p.ram < U64MOD) :
    ∀ q ∈ sumGroups l, q.ram < U64MOD := by
  rw [sumGroups]
  suffices h : ∀ t acc : List ProcessData,
      (∀ p ∈ t, p.ram < U64MOD) → (∀ q ∈ acc, q.ram < U64MOD) →
      ∀ q ∈ t.foldl addToGroups acc, q.ram < U64MOD by
    exact h l [] hl fun q hq => absurd hq (List.not_mem_nil q)
  intro t
  induction t with
  | nil => intro acc _ hacc q hq; exact hacc q hq
  | cons p t' ih =>
    intro acc ht hacc q hq
    rw [List.foldl_cons] at hq
    exact ih (addToGroups acc p)
      (fun a ha => ht a (List.mem_cons_of_mem p ha))
      (addToGroups_ram_lt p (ht p (List.mem_cons_self p t')) acc hacc) q hq

theorem foldr_wrapAdd64_eq_sum (l : List ℕ) (h : l.sum < U64MOD) :
    l.foldr wrapAdd64 0 = l.sum := by
  induction l with
  | nil => rfl
  | cons a t ih =>
    rw [List.sum_cons] at h
    have ht : t.sum < U64MOD := by omega
    rw [List.foldr_cons, ih ht, wrapAdd64, List.sum_cons]
    exact Nat.mod_eq_of_lt h

theorem fieldSum_perm {β : Type} (g : ProcessData → β) (op : β → β → β)
    (e : β) [LeftCommutative op] (n : String) {l l' : List ProcessData}
    (h : l.Perm l') : fieldSum g op e n l = fieldSum g op e n l' := by
  simp only [fieldSum]
  exact @List.Perm.foldr_eq _ _ op _ _ inferInstance
    ((h.filter (fun p => p.name == n)).map g) e

theorem countName_perm (n : String) {l l' : List ProcessData}
    (h : l.Perm l') : countName n l = countName n l' := by
  simp only [countName]
  exact (h.filter (fun p => p.name == n)).length_eq

theorem fieldSum_single {β : Type} (g : ProcessData → β) (op : β → β → β)
    (e : β) (n : String) {l : List ProcessData} {r : ProcessData}
    (h : l.filter (fun p => p.name == n) = [r]) :
    fieldSum g op e n l = op (g r) e := by
  rw [fieldSum, h]
  rfl

theorem countName_pos_mem (n : String) (l : List ProcessData)
    (h : 0 < countName n l) : n ∈ l.map (·.name) := by
  rw [countName] at h
  have hne : l.filter (fun p => p.name == n) ≠ [] := by
    intro he
    rw [he] at h
    cases h
  obtain ⟨x, hx⟩ := List.exists_mem_of_ne_nil _ hne
  obtain ⟨hxl, hxn⟩ := List.mem_filter.mp hx
  exact List.mem_map.mpr ⟨x, hxl, beq_iff_eq.mp hxn⟩

/-- C7: whenever the rollup is produced (the sort does not panic) and a name
occurs at least twice in the process list, the rollup has exactly one row for
that name, and its cpu usage, ram and total time are the sums of the raw
values over all samples of that name (ram as a `u64` sum, exact under the
stated no-overflow bounds; cpu and time as `f32` sums, exact in the model's
arithmetic). -/
theorem rollup_group_sums (ps rows : List ProcessData) (n : String)
    (hr : rollup ps = some rows)
    (h2 : 2 ≤ countName n ps)
    (hram : ∀ p ∈ ps, p.ram < U64MOD)
    (hsum : ((ps.filter (fun p => p.name == n)).map (·.ram)).sum < U64MOD) :
    ∃ r, rows.filter (fun p => p.name == n) = [r] ∧
      r.cpu_usage =
        f32sum ((ps.filter (fun p => p.name == n)).map (·.cpu_usage)) ∧
      r.ram = ((ps.filter (fun p => p.name == n)).map (·.ram)).sum ∧
      r.total_time =
        f32sum ((ps.filter (fun p => p.name == n)).map (·.total_time)) := by
  rw [rollup] at hr
  cases hs : sortedByCpuDesc ps with
  | none => rw [hs] at hr; cases hr
  | some l =>
    rw [hs, Option.map_some'] at hr
    cases hr
    have hperm : l.Perm ps := sortedByCpuDesc_perm ps l hs
    have hmem : n ∈ l.map (·.name) := by
      apply countName_pos_mem
      rw [countName_perm n hperm]
      omega
    have hcount : (List.filter (fun p => p.name == n) (sumGroups l)).length = 1 := by
      have : countName n (sumGroups l) = 1 := by
        rw [countName_sumGroups, if_pos hmem]
      exact this
    obtain ⟨r, hr1⟩ := List.length_eq_one.mp hcount
    have hrmem : r ∈ sumGroups l :=
      List.mem_of_mem_filter (by rw [hr1]; exact List.mem_singleton_self r)
    refine ⟨r, hr1, ?_, ?_, ?_⟩
    · have e1 : fieldSum (fun p => p.cpu_usage) F32.add (.fin 0) n
          (sumGroups l) = F32.add r.cpu_usage (.fin 0) :=
        fieldSum_single _ _ _ _ hr1
      rw [F32.add_zero_right] at e1
      have e2 := fieldSum_sumGroups (fun p => p.cpu_usage) F32.add (.fin 0)
        (fun q p => rfl) F32.add_comm F32.add_assoc
        (fun t m => F32.add_zero_right _) n l
      have e3 := fieldSum_perm (fun p => p.cpu_usage) F32.add (.fin 0) n hperm
      rw [← e1, e2, e3]
      exact (List.foldl_eq_foldr _ _).symm
    · have hrlt : r.ram < U64MOD :=
        sumGroups_ram_lt l (fun p hp => hram p (hperm.mem_iff.mp hp)) r hrmem
      have e1 : fieldSum (fun p => p.ram) wrapAdd64 0 n (sumGroups l) =
          wrapAdd64 r.ram 0 := fieldSum_single _ _ _ _ hr1
      rw [show wrapAdd64 r.ram 0 = r.ram from by
        rw [wrapAdd64, Nat.add_zero]; exact Nat.mod_eq_of_lt hrlt] at e1
      have hre : ∀ (t : List ProcessData) (m : String),
          wrapAdd64 (fieldSum (fun p => p.ram) wrapAdd64 0 m t) 0 =
            fieldSum (fun p => p.ram) wrapAdd64 0 m t := by
        intro t m
        rw [wrapAdd64, Nat.add_zero]
        exact Nat.mod_eq_of_lt (fieldSum_ram_lt m t)
      have e2 := fieldSum_sumGroups (fun p => p.ram) wrapAdd64 0
        (fun q p => rfl) wrapAdd64_comm wrapAdd64_assoc hre n l
      have e3 := fieldSum_perm (fun p => p.ram) wrapAdd64 0 n hperm
      rw [← e1, e2, e3]
      exact foldr_wrapAdd64_eq_sum _ hsum
    · have e1 : fieldSum (fun p => p.total_time) F32.add (.fin 0) n
          (sumGroups l) = F32.add r.total_time (.fin 0) :=
        fieldSum_single _ _ _ _ hr1
      rw [F32.add_zero_right] at e1
      have e2 := fieldSum_sumGroups (fun p => p.total_time) F32.add (.fin 0)
        (fun q p => rfl) F32.add_comm F32.add_assoc
        (fun t m => F32.add_zero_right _) n l
      have e3 := fieldSum_perm (fun p => p.total_time) F32.add (.fin 0) n
        hperm
      rw [← e1, e2, e3]
      exact (List.foldl_eq_foldr _ _).symm

/-- First process named X: cpu 2, ram 10, total time 1. -/
def procX1 : ProcessData :=
  { pid := 1, name := "X", exe := "/bin/x", state := "Run", ram := 10,
    virtual_memory := 5, total_time := .fin 1, start_time := .fin 0,
    cpu_usage := .fin 2 }

/-- Second process named X: cpu 3, ram 20, total time 2. -/
def procX2 : ProcessData :=
  { pid := 2, name := "X", exe := "/bin/x", state := "Run", ram := 20,
    virtual_memory := 5, total_time := .fin 2, start_time := .fin 0,
    cpu_usage := .fin 3 }

/-- The single rollup row for the two X processes: first-encountered (higher
cpu) member's identity, summed cpu 5, ram 30, total time 3. -/
def rollupXrow : ProcessData :=
  { pid := 2, name := "X", exe := "/bin/x", state := "Run", ram := 30,
    virtual_memory := 5, total_time := .fin 3, start_time := .fin 0,
    cpu_usage := .fin 5 }

/-- C7 witness: two processes named X with cpu 2 and 3, ram 10 and 20, time 1
and 2 roll up to one row summing to cpu 5, ram 30, time 3. -/
theorem rollup_group_sums_witness :
    ∃ r, [rollupXrow].filter (fun p => p.name == "X") = [r] ∧
      r.cpu_usage = f32sum ((([procX1, procX2]).filter
        (fun p => p.name == "X")).map (·.cpu_usage)) ∧
      r.ram = ((([procX1, procX2]).filter
        (fun p => p.name == "X")).map (·.ram)).sum ∧
      r.total_time = f32sum ((([procX1, procX2]).filter
        (fun p => p.name == "X")).map (·.total_time)) :=
  rollup_group_sums [procX1, procX2] [rollupXrow] "X"
    (by norm_num [rollup, sortedByCpuDesc, insSort, insertLe, cpuGe, F32.ble,
          F32.isNan, sumGroups, addToGroups, mergeRow, F32.add, wrapAdd64,
          U64MOD, procX1, procX2, rollupXrow]
        try simp)
    (by decide) (by decide) (by decide)

end Pidwatch
